import Mathlib

/-!
Verification of the `edp-gmail-invoices` downloader (`main.go`) against its
natural-language specification.

The Go program is embedded shallowly:

* Go strings are `List Char` (or `String` where convenient).
* The regular expressions `\(contrato (\d+)\)` and `^\d+\.pdf$` from
  `main.go` are embedded as executable matching functions over `List Char`
  (`findContract`, `invoiceFilenameMatch`); RE2's leftmost-match semantics
  for the first pattern is realised by scanning candidate start positions
  left to right.
* The Go map `Configuration.Contracts` is an association list.
* Effectful steps (file reads and writes, HTTP calls) are modelled by
  passing their outcomes explicitly as parameters, so every loop of `main`
  becomes a pure function of the sequence of provider responses.
-/

/-! ## Message classification (main.go lines 211-277)

`contractSubjectRegex := regexp.MustCompile("\\(contrato (\\d+)\\)")` and the
`filenamePrefix` computation in `main`. -/

/-- The literal part of `contractSubjectRegex`: the characters `(contrato `
that must precede the captured digit group. -/
def contractPat : List Char := "(contrato ".data

/-- Strip an expected literal from the front of a string; `none` when the
string does not start with the literal. -/
def chopLit : List Char → List Char → Option (List Char)
  | [], s => some s
  | _ :: _, [] => none
  | p :: ps, c :: cs => if p = c then chopLit ps cs else none

/-- Attempt to match `\(contrato (\d+)\)` anchored at the start of `s`,
returning the captured digit group. Because `\d+` can only end at a
non-digit and must be followed by `)`, the capture at a given position is
exactly the maximal run of digits after the literal, provided it is
non-empty and followed by `)`. -/
def matchContractAt (s : List Char) : Option (List Char) :=
  match chopLit contractPat s with
  | none => none
  | some rest =>
    match rest.dropWhile Char.isDigit with
    | ')' :: _ =>
      if (rest.takeWhile Char.isDigit).isEmpty then none
      else some (rest.takeWhile Char.isDigit)
    | _ => none

/-- `contractSubjectRegex.FindStringSubmatch(subject)[1]`: the digit group of
the leftmost match of `\(contrato (\d+)\)`, or `none` when there is no
match. Scans candidate start positions left to right, as RE2 does. -/
def findContract : List Char → Option (List Char)
  | [] => none
  | c :: cs =>
    match matchContractAt (c :: cs) with
    | some ds => some ds
    | none => findContract cs

/-- Lookup in the `Configuration.Contracts` Go map (`configuration.Contracts[contract]`),
with the map modelled as an association list. -/
def lookupAlias : List (List Char × List Char) → List Char → Option (List Char)
  | [], _ => none
  | (k, v) :: rest, c => if k = c then some v else lookupAlias rest c

/-- The `filenamePrefix` computation of `main.go` lines 268-277: default
`date + "-" + m.Id`; when the subject regex matches, `date-edp-contract`,
further extended with `-alias` when the contract is in the alias table. -/
def filenameBase (contracts : List (List Char × List Char))
    (date mid subject : List Char) : List Char :=
  match findContract subject with
  | none => date ++ '-' :: mid
  | some c =>
    let q := date ++ "-edp-".data ++ c
    match lookupAlias contracts c with
    | some a => q ++ '-' :: a
    | none => q

/-- Specification-level predicate: the subject contains a parenthesized
token of the form `(contrato <digits>)` somewhere. -/
def hasContractToken (s : List Char) : Prop :=
  ∃ pre ds post, s = pre ++ contractPat ++ ds ++ ')' :: post ∧
    ds ≠ [] ∧ ∀ c ∈ ds, c.isDigit = true

theorem chopLit_eq_some_iff (p : List Char) :
    ∀ s r, chopLit p s = some r ↔ s = p ++ r := by
  induction p with
  | nil => intro s r; simp [chopLit]
  | cons x xs ih =>
    intro s r
    cases s with
    | nil => simp [chopLit]
    | cons c cs =>
      by_cases h : x = c
      · subst h
        simp [chopLit, ih]
      · simp [chopLit, h, Ne.symm h]

theorem takeWhile_all_append (p : Char → Bool) (l : List Char) (c0 : Char)
    (t : List Char) (h : ∀ c ∈ l, p c = true) (h0 : p c0 = false) :
    (l ++ c0 :: t).takeWhile p = l ∧ (l ++ c0 :: t).dropWhile p = c0 :: t := by
  induction l with
  | nil => simp [List.takeWhile, List.dropWhile, h0]
  | cons x xs ih =>
    have hx : p x = true := h x (by simp)
    have ih2 := ih (fun c hc => h c (by simp [hc]))
    simp [List.takeWhile, List.dropWhile, hx, ih2.1, ih2.2]

theorem matchContractAt_eq_some_iff (s ds : List Char) :
    matchContractAt s = some ds ↔
      ∃ post, s = contractPat ++ ds ++ ')' :: post ∧ ds ≠ [] ∧
        ∀ c ∈ ds, c.isDigit = true := by
  constructor
  · intro h
    unfold matchContractAt at h
    cases hc : chopLit contractPat s with
    | none => rw [hc] at h; exact absurd h (by simp)
    | some rest =>
      rw [hc] at h
      simp only at h
      split at h
      · rename_i t heq
        split at h
        · exact absurd h (by simp)
        · rename_i he
          have hds : rest.takeWhile Char.isDigit = ds := Option.some.inj h
          refine ⟨t, ?_, ?_, ?_⟩
          · have hs : s = contractPat ++ rest := (chopLit_eq_some_iff _ _ _).mp hc
            have hrest : rest = ds ++ ')' :: t := by
              conv_lhs => rw [← List.takeWhile_append_dropWhile
                (p := Char.isDigit) (l := rest)]
              rw [hds, heq]
            rw [hs, hrest]; simp
          · intro hds0; rw [hds0] at hds; rw [hds] at he; simp at he
          · intro c hcin
            rw [← hds] at hcin
            exact List.mem_takeWhile_imp hcin
      · exact absurd h (by simp)
  · rintro ⟨post, rfl, hne, hdig⟩
    have hchop : chopLit contractPat (contractPat ++ ds ++ ')' :: post) =
        some (ds ++ ')' :: post) := by
      rw [chopLit_eq_some_iff]; simp
    have htw := takeWhile_all_append Char.isDigit ds ')' post hdig (by decide)
    unfold matchContractAt
    rw [hchop]
    simp only [htw.1, htw.2]
    rw [if_neg (by simpa using hne)]

theorem findContract_isSome_iff (s : List Char) :
    (findContract s).isSome ↔ hasContractToken s := by
  induction s with
  | nil =>
    simp only [findContract, Option.isSome_none, Bool.false_eq_true, false_iff]
    rintro ⟨pre, ds, post, hs, -, -⟩
    have hlen : ([] : List Char).length =
        (pre ++ contractPat ++ ds ++ ')' :: post).length := by rw [hs]
    simp [contractPat] at hlen
    omega
  | cons c cs ih =>
    constructor
    · intro h
      unfold findContract at h
      cases hm : matchContractAt (c :: cs) with
      | some ds =>
        obtain ⟨post, hs, hne, hdig⟩ := (matchContractAt_eq_some_iff _ _).mp hm
        exact ⟨[], ds, post, by simpa using hs, hne, hdig⟩
      | none =>
        simp only [hm] at h
        obtain ⟨pre, ds, post, hs, hne, hdig⟩ := ih.mp h
        exact ⟨c :: pre, ds, post, by simp [hs], hne, hdig⟩
    · rintro ⟨pre, ds, post, hs, hne, hdig⟩
      cases pre with
      | nil =>
        have hm : matchContractAt (c :: cs) = some ds := by
          rw [matchContractAt_eq_some_iff]
          exact ⟨post, by simpa using hs, hne, hdig⟩
        unfold findContract; rw [hm]; rfl
      | cons p ps =>
        simp only [List.cons_append, List.cons.injEq] at hs
        have htl : (findContract cs).isSome := by
          rw [ih]
          exact ⟨ps, ds, post, by simp [hs.2], hne, hdig⟩
        unfold findContract
        cases hm : matchContractAt (c :: cs) with
        | some ds2 => rfl
        | none => simpa using htl

theorem contractPat_head : contractPat = '(' :: "contrato ".data := rfl

theorem matchContractAt_ne_paren {x : Char} (r : List Char) (hx : x ≠ '(') :
    matchContractAt (x :: r) = none := by
  unfold matchContractAt
  have hc : chopLit contractPat (x :: r) = none := by
    rw [contractPat_head]
    unfold chopLit
    rw [if_neg (fun h => hx h.symm)]
  rw [hc]

theorem findContract_of_match (s ds : List Char)
    (h : matchContractAt s = some ds) : findContract s = some ds := by
  cases s with
  | nil =>
    have h0 : matchContractAt [] = none := rfl
    rw [h0] at h; exact absurd h (by simp)
  | cons c cs => unfold findContract; rw [h]

theorem findContract_front (pre ds post : List Char) (hp : '(' ∉ pre)
    (hne : ds ≠ []) (hdig : ∀ c ∈ ds, c.isDigit = true) :
    findContract (pre ++ contractPat ++ ds ++ ')' :: post) = some ds := by
  induction pre with
  | nil =>
    refine findContract_of_match _ _ ?_
    rw [matchContractAt_eq_some_iff]
    exact ⟨post, by simp, hne, hdig⟩
  | cons x xs ih =>
    have hx : x ≠ '(' := fun h => hp (by simp [h])
    have hm := matchContractAt_ne_paren
      (xs ++ contractPat ++ ds ++ ')' :: post) hx
    have hgoal : findContract
        (x :: (xs ++ contractPat ++ ds ++ ')' :: post)) = some ds := by
      unfold findContract
      have hm2 : matchContractAt
          (x :: (xs ++ contractPat ++ ds ++ ')' :: post)) = none := by
        have := hm
        simpa [List.append_assoc] using this
      simp only [hm2]
      have := ih (fun h => hp (by simp [h]))
      simpa [List.append_assoc] using this
    simpa [List.append_assoc] using hgoal

/-- C1: messages whose subject contains a `(contrato <digits>)` token get
filename prefix `date-edp-contract` from the first such match, extended with
`-alias` exactly when the contract is in the alias table; otherwise the
prefix is exactly `date-messageId`. The running example subject classifies
to contract id `100200300200`. -/
theorem claim_C1_subject_classification :
    (∀ s, (findContract s).isSome ↔ hasContractToken s)
    ∧ (∀ contracts date mid s, findContract s = none →
        filenameBase contracts date mid s = date ++ '-' :: mid)
    ∧ (∀ contracts date mid s c, findContract s = some c →
        lookupAlias contracts c = none →
        filenameBase contracts date mid s = date ++ "-edp-".data ++ c)
    ∧ (∀ contracts date mid s c a, findContract s = some c →
        lookupAlias contracts c = some a →
        filenameBase contracts date mid s =
          date ++ "-edp-".data ++ c ++ '-' :: a)
    ∧ (∀ pre ds post, '(' ∉ pre → ds ≠ [] → (∀ c ∈ ds, c.isDigit = true) →
        findContract (pre ++ contractPat ++ ds ++ ')' :: post) = some ds)
    ∧ findContract "A sua fatura EDP (contrato 100200300200)".data =
        some "100200300200".data := by
  refine ⟨findContract_isSome_iff, ?_, ?_, ?_, findContract_front, by decide⟩
  · intro contracts date mid s h
    unfold filenameBase
    rw [h]
  · intro contracts date mid s c h hl
    unfold filenameBase
    rw [h]
    simp only [hl]
  · intro contracts date mid s c a h hl
    unfold filenameBase
    rw [h]
    simp [hl, List.append_assoc]

theorem claim_C1_subject_classification_witness :
    filenameBase [("100200300200".data, "mafra".data)] "2024-07-08".data
        "msg1".data "A sua fatura EDP (contrato 100200300200)".data =
      "2024-07-08-edp-100200300200-mafra".data
    ∧ filenameBase [] "2024-07-08".data "msg1".data
        "A sua fatura EDP (contrato 100200300200)".data =
      "2024-07-08-edp-100200300200".data
    ∧ filenameBase [] "2024-07-08".data "msg1".data
        "A sua fatura EDP".data = "2024-07-08-msg1".data := by
  refine ⟨?_, ?_, ?_⟩
  · rw [claim_C1_subject_classification.2.2.2.1
      [("100200300200".data, "mafra".data)] "2024-07-08".data "msg1".data
      "A sua fatura EDP (contrato 100200300200)".data "100200300200".data
      "mafra".data (by decide) (by decide)]
    decide
  · rw [claim_C1_subject_classification.2.2.1 [] "2024-07-08".data "msg1".data
      "A sua fatura EDP (contrato 100200300200)".data "100200300200".data
      (by decide) (by decide)]
    decide
  · rw [claim_C1_subject_classification.2.1 [] "2024-07-08".data "msg1".data
      "A sua fatura EDP".data (by decide)]
    decide

/-! ## Pagination loop (main.go lines 227-244 and 310-314)

The `for` loop in `main` issues `Users.Messages.List` requests, supplying
`PageToken` only when the token is non-empty, stops as soon as a page has no
messages, and otherwise continues while `NextPageToken` is non-empty. The
provider is modelled as a function from the supplied page token (`""` for
the first request, which omits the token) to the response page. -/

/-- One `users.messages.list` response: message ids plus `NextPageToken`. -/
structure ListPage where
  messages : List String
  nextPageToken : String

/-- The pagination loop of `main`, parametrised by the provider `server` and
bounded by `fuel` iterations. Returns `(requests, ids)`: the page tokens of
the requests issued in order (`""` standing for the tokenless first
request) and the message ids yielded in order; `none` when `fuel`
iterations did not reach termination. -/
def scanMessages (server : String → ListPage) : Nat → String →
    Option (List String × List String)
  | 0, _ => none
  | fuel + 1, tok =>
    let r := server tok
    if r.messages.isEmpty then some ([tok], [])
    else if r.nextPageToken = "" then some ([tok], r.messages)
    else
      match scanMessages server fuel r.nextPageToken with
      | none => none
      | some (reqs, msgs) => some (tok :: reqs, r.messages ++ msgs)

/-- C2: with pages of sizes 2, 2, 0 and continuation tokens `A`, `B`, empty,
the loop issues exactly the three requests (no token, `A`, `B`) and yields
the four ids in order, terminating within 3 iterations no matter how much
more fuel is available; and a first page with no messages terminates
cleanly after the single first request with no ids yielded. -/
theorem scanMessages_step (server : String → ListPage) (fuel : Nat)
    (tok : String) :
    scanMessages server (fuel + 1) tok =
      if (server tok).messages.isEmpty then some ([tok], [])
      else if (server tok).nextPageToken = "" then
        some ([tok], (server tok).messages)
      else
        match scanMessages server fuel (server tok).nextPageToken with
        | none => none
        | some (reqs, msgs) =>
          some (tok :: reqs, (server tok).messages ++ msgs) := rfl

theorem claim_C2_pagination :
    (∀ (server : String → ListPage) (m1 m2 m3 m4 : String) (extra : Nat),
      server "" = ⟨[m1, m2], "A"⟩ → server "A" = ⟨[m3, m4], "B"⟩ →
      server "B" = ⟨[], ""⟩ →
      scanMessages server (3 + extra) "" =
        some (["", "A", "B"], [m1, m2, m3, m4]))
    ∧ (∀ (server : String → ListPage) (fuel : Nat),
      (server "").messages = [] →
      scanMessages server (fuel + 1) "" = some ([""], [])) := by
  constructor
  · intro server m1 m2 m3 m4 extra h1 h2 h3
    have s3 : scanMessages server (extra + 1) "B" = some (["B"], []) := by
      rw [scanMessages_step, h3]
      simp
    have s2 : scanMessages server (extra + 1 + 1) "A" =
        some (["A", "B"], [m3, m4]) := by
      rw [scanMessages_step, h2]
      simp only
      rw [s3]
      simp
    have s1 : scanMessages server (extra + 1 + 1 + 1) "" =
        some (["", "A", "B"], [m1, m2, m3, m4]) := by
      rw [scanMessages_step, h1]
      simp only
      rw [s2]
      simp
    have he : 3 + extra = extra + 1 + 1 + 1 := by omega
    rw [he]
    exact s1
  · intro server fuel h
    rw [scanMessages_step]
    simp [List.isEmpty_iff, h]

theorem claim_C2_pagination_witness :
    scanMessages (fun t =>
        if t = "A" then ⟨["m3", "m4"], "B"⟩
        else if t = "B" then ⟨[], ""⟩
        else ⟨["m1", "m2"], "A"⟩) 3 "" =
      some (["", "A", "B"], ["m1", "m2", "m3", "m4"])
    ∧ scanMessages (fun _ => ⟨[], "X"⟩) 1 "" = some ([""], []) := by
  constructor
  · exact claim_C2_pagination.1 _ "m1" "m2" "m3" "m4" 0 rfl rfl rfl
  · exact claim_C2_pagination.2 (fun _ => ⟨[], "X"⟩) 0 rfl

/-! ## Search query encoding (main.go lines 144-156)

`encodeQuery` joins `key:value` pairs with spaces, quoting a value as
`key:"value"` when `strings.ContainsAny(value, " :")` holds. The Go map is
modelled as an association list, fixing an iteration order. -/

/-- Characters allowed to continue a key while parsing: anything except the
colon ending the key and the space separating entries. -/
def pKeyChar (c : Char) : Bool := !(c == ':') && !(c == ' ')

/-- `strings.ContainsAny(value, " :")` from `encodeQuery`. -/
def needsQuote (v : List Char) : Bool := v.any (fun c => c == ' ' || c == ':')

/-- One `fmt.Sprintf` of `encodeQuery`: `key:"value"` when the value needs
quoting, `key:value` otherwise. -/
def encodeEntry (k v : List Char) : List Char :=
  if needsQuote v then k ++ ':' :: '"' :: v ++ ['"']
  else k ++ ':' :: v

/-- `encodeQuery` of main.go: the entries joined with single spaces
(`strings.Join(queries, " ")`). -/
def encodeQuery : List (List Char × List Char) → List Char
  | [] => []
  | [(k, v)] => encodeEntry k v
  | (k, v) :: rest => encodeEntry k v ++ ' ' :: encodeQuery rest

/-- Modelled from the spec: the repository contains no query parser (the
encoded string is interpreted by the Gmail search backend), so the spec's
"parsing the encoded string back into field:value pairs" is realised here:
entries are separated by single spaces, a key runs up to the colon, and a
value is either a quoted run ending at the next double quote or an unquoted
run ending at the next space. `fuel` bounds the number of entries. -/
def parseQueryAux : Nat → List Char → Option (List (List Char × List Char))
  | 0, s => if s.isEmpty then some [] else none
  | fuel + 1, s =>
    if s.isEmpty then some []
    else
      match s.dropWhile pKeyChar with
      | ':' :: rest =>
        if rest.head? = some '"' then
          match rest.tail.dropWhile (fun c => !(c == '"')) with
          | '"' :: [] =>
            some [(s.takeWhile pKeyChar,
              rest.tail.takeWhile (fun c => !(c == '"')))]
          | '"' :: ' ' :: rest3 =>
            match parseQueryAux fuel rest3 with
            | none => none
            | some tl =>
              some ((s.takeWhile pKeyChar,
                rest.tail.takeWhile (fun c => !(c == '"'))) :: tl)
          | _ => none
        else
          match rest.dropWhile (fun c => !(c == ' ')) with
          | [] => some [(s.takeWhile pKeyChar,
              rest.takeWhile (fun c => !(c == ' ')))]
          | ' ' :: rest3 =>
            match parseQueryAux fuel rest3 with
            | none => none
            | some tl =>
              some ((s.takeWhile pKeyChar,
                rest.takeWhile (fun c => !(c == ' '))) :: tl)
          | _ => none
      | _ => none

/-- Parse a full query string back into field:value pairs. -/
def parseQuery (s : List Char) : Option (List (List Char × List Char)) :=
  parseQueryAux s.length s

theorem parseQueryAux_step (fuel : Nat) (s : List Char) :
    parseQueryAux (fuel + 1) s =
      if s.isEmpty then some []
      else
        match s.dropWhile pKeyChar with
        | ':' :: rest =>
          if rest.head? = some '"' then
            match rest.tail.dropWhile (fun c => !(c == '"')) with
            | '"' :: [] =>
              some [(s.takeWhile pKeyChar,
                rest.tail.takeWhile (fun c => !(c == '"')))]
            | '"' :: ' ' :: rest3 =>
              match parseQueryAux fuel rest3 with
              | none => none
              | some tl =>
                some ((s.takeWhile pKeyChar,
                  rest.tail.takeWhile (fun c => !(c == '"'))) :: tl)
            | _ => none
          else
            match rest.dropWhile (fun c => !(c == ' ')) with
            | [] => some [(s.takeWhile pKeyChar,
                rest.takeWhile (fun c => !(c == ' ')))]
            | ' ' :: rest3 =>
              match parseQueryAux fuel rest3 with
              | none => none
              | some tl =>
                some ((s.takeWhile pKeyChar,
                  rest.takeWhile (fun c => !(c == ' '))) :: tl)
            | _ => none
        | _ => none := rfl

theorem takeWhile_all (p : Char → Bool) (l : List Char)
    (h : ∀ c ∈ l, p c = true) : l.takeWhile p = l ∧ l.dropWhile p = [] := by
  induction l with
  | nil => simp
  | cons x xs ih =>
    have hx : p x = true := h x (by simp)
    have ih2 := ih (fun c hc => h c (by simp [hc]))
    simp [List.takeWhile, List.dropWhile, hx, ih2.1, ih2.2]

theorem pKeyChar_eq_true {c : Char} :
    pKeyChar c = true ↔ c ≠ ':' ∧ c ≠ ' ' := by
  simp [pKeyChar]

theorem parseQueryAux_entry (k v more : List Char) (fuel : Nat)
    (hk1 : ':' ∉ k) (hk2 : ' ' ∉ k) (hv : '"' ∉ v) :
    parseQueryAux (fuel + 1) (encodeEntry k v) = some [(k, v)]
    ∧ parseQueryAux (fuel + 1) (encodeEntry k v ++ ' ' :: more) =
      (match parseQueryAux fuel more with
       | none => none
       | some tl => some ((k, v) :: tl)) := by
  have hkall : ∀ c ∈ k, pKeyChar c = true := fun c hc =>
    pKeyChar_eq_true.mpr ⟨fun h => hk1 (h ▸ hc), fun h => hk2 (h ▸ hc)⟩
  cases hq : needsQuote v with
  | false =>
    simp only [needsQuote, List.any_eq_false] at hq
    have hvsp : ∀ c ∈ v, (!(c == ' ')) = true := by
      intro c hc
      have := hq c hc
      simp at this
      simp [this.1]
    have hform : encodeEntry k v = k ++ ':' :: v := by
      rw [encodeEntry, if_neg]
      simp [needsQuote, List.any_eq_false]
      intro c hc
      have := hq c hc
      simpa using this
    have hhead : ∀ t : List Char, t = [] ∨ t.head? = some ' ' →
        (v ++ t).head? ≠ some '"' := by
      intro t ht
      cases v with
      | nil =>
        rcases ht with h | h
        · simp [h]
        · simp [h]
      | cons c cs =>
        simp only [List.cons_append, List.head?, ne_eq, Option.some.injEq]
        intro h
        exact hv (h ▸ List.mem_cons_self c cs)
    constructor
    · rw [hform, parseQueryAux_step]
      have hne : (k ++ ':' :: v).isEmpty = false := by cases k <;> rfl
      have hsp := takeWhile_all_append pKeyChar k ':' v hkall (by rfl)
      have hval := takeWhile_all (fun c => !(c == ' ')) v hvsp
      have hh := hhead [] (Or.inl rfl)
      simp only [List.append_nil] at hh
      simp only [hne, Bool.false_eq_true, if_false, hsp.1, hsp.2]
      rw [if_neg hh]
      simp only [hval.1, hval.2]
    · have hform2 : encodeEntry k v ++ ' ' :: more =
          k ++ ':' :: (v ++ ' ' :: more) := by
        rw [hform]; simp
      rw [hform2, parseQueryAux_step]
      have hne : (k ++ ':' :: (v ++ ' ' :: more)).isEmpty = false := by
        cases k <;> rfl
      have hsp := takeWhile_all_append pKeyChar k ':' (v ++ ' ' :: more)
        hkall (by rfl)
      have hval := takeWhile_all_append (fun c => !(c == ' ')) v ' ' more
        hvsp (by rfl)
      have hh := hhead (' ' :: more) (Or.inr rfl)
      simp only [hne, Bool.false_eq_true, if_false, hsp.1, hsp.2]
      rw [if_neg hh]
      simp only [hval.1, hval.2]
  | true =>
    have hvq : ∀ c ∈ v, (!(c == '"')) = true := by
      intro c hc
      simp only [Bool.not_eq_eq_eq_not, Bool.not_true, beq_eq_false_iff_ne,
        ne_eq]
      intro h
      exact hv (h ▸ hc)
    have hform : encodeEntry k v = k ++ ':' :: ('"' :: (v ++ ['"'])) := by
      rw [encodeEntry, if_pos hq]
      simp
    constructor
    · rw [hform, parseQueryAux_step]
      have hne : (k ++ ':' :: ('"' :: (v ++ ['"']))).isEmpty = false := by
        cases k <;> rfl
      have hsp := takeWhile_all_append pKeyChar k ':' ('"' :: (v ++ ['"']))
        hkall (by rfl)
      have hval := takeWhile_all_append (fun c => !(c == '"')) v '"' []
        hvq (by rfl)
      simp only [hne, Bool.false_eq_true, if_false, hsp.1, hsp.2]
      have hcond : ('"' :: (v ++ ['"'])).head? = some '"' := rfl
      rw [if_pos hcond]
      simp only [List.tail_cons, hval.1, hval.2]
    · have hform2 : encodeEntry k v ++ ' ' :: more =
          k ++ ':' :: ('"' :: (v ++ '"' :: ' ' :: more)) := by
        rw [hform]; simp
      rw [hform2, parseQueryAux_step]
      have hne : (k ++ ':' :: ('"' :: (v ++ '"' :: ' ' :: more))).isEmpty =
          false := by cases k <;> rfl
      have hsp := takeWhile_all_append pKeyChar k ':'
        ('"' :: (v ++ '"' :: ' ' :: more)) hkall (by rfl)
      have hval := takeWhile_all_append (fun c => !(c == '"')) v '"'
        (' ' :: more) hvq (by rfl)
      simp only [hne, Bool.false_eq_true, if_false, hsp.1, hsp.2]
      have hcond : ('"' :: (v ++ '"' :: ' ' :: more)).head? = some '"' := rfl
      rw [if_pos hcond]
      simp only [List.tail_cons, hval.1, hval.2]

theorem parseQueryAux_encodeQuery (params : List (List Char × List Char))
    (h : ∀ kv ∈ params, ':' ∉ kv.1 ∧ ' ' ∉ kv.1 ∧ '"' ∉ kv.2) :
    ∀ fuel, params.length ≤ fuel →
      parseQueryAux fuel (encodeQuery params) = some params := by
  induction params with
  | nil =>
    intro fuel _
    cases fuel <;> simp [parseQueryAux, encodeQuery]
  | cons kv rest ih =>
    intro fuel hf
    obtain ⟨f, rfl⟩ : ∃ f, fuel = f + 1 := ⟨fuel - 1, by simp at hf; omega⟩
    obtain ⟨k, v⟩ := kv
    have hh := h (k, v) (by simp)
    cases rest with
    | nil =>
      show parseQueryAux (f + 1) (encodeEntry k v) = some [(k, v)]
      exact (parseQueryAux_entry k v [] f hh.1 hh.2.1 hh.2.2).1
    | cons kv2 rs =>
      show parseQueryAux (f + 1)
        (encodeEntry k v ++ ' ' :: encodeQuery (kv2 :: rs)) = _
      rw [(parseQueryAux_entry k v (encodeQuery (kv2 :: rs)) f
        hh.1 hh.2.1 hh.2.2).2]
      rw [ih (fun kv hkv => h kv (by simp [hkv])) f
        (by simp only [List.length_cons] at hf ⊢; omega)]

theorem length_le_encodeQuery (params : List (List Char × List Char)) :
    params.length ≤ (encodeQuery params).length := by
  induction params with
  | nil => simp [encodeQuery]
  | cons kv rest ih =>
    obtain ⟨k, v⟩ := kv
    cases rest with
    | nil =>
      show 1 ≤ (encodeEntry k v).length
      rw [encodeEntry]
      split <;> simp <;> omega
    | cons kv2 rs =>
      show (kv2 :: rs).length + 1 ≤
        (encodeEntry k v ++ ' ' :: encodeQuery (kv2 :: rs)).length
      simp only [List.length_append, List.length_cons]
      simp only [List.length_cons] at ih
      omega

/-- C3 as stated is false: `encodeQuery` never quotes or escapes keys, so a
key containing a colon round-trips to a different mapping. For the mapping
with the single entry `a:b ↦ c`, the encoded string is `a:b:c`, which
parses back as `a ↦ b:c`. -/
theorem claim_C3_roundtrip_counterexample :
    parseQuery (encodeQuery [("a:b".data, "c".data)]) =
      some [("a".data, "b:c".data)]
    ∧ some [("a".data, "b:c".data)] ≠
      some [("a:b".data, "c".data)] := by
  constructor
  · decide
  · decide

/-- C3 (amended): `encodeQuery` emits one `field:value` pair per entry,
quoted as `key:"value"` exactly when the value contains a space or a colon;
and for every mapping whose keys contain no space and no colon and whose
values contain no double quote, parsing the encoded string back recovers
the mapping exactly. -/
theorem claim_C3_encode_parse_roundtrip :
    (∀ v, needsQuote v = true ↔ (' ' ∈ v ∨ ':' ∈ v))
    ∧ (∀ k v, needsQuote v = true →
        encodeEntry k v = k ++ ':' :: ('"' :: (v ++ ['"'])))
    ∧ (∀ k v, needsQuote v = false → encodeEntry k v = k ++ ':' :: v)
    ∧ (∀ params, (∀ kv ∈ params, ':' ∉ kv.1 ∧ ' ' ∉ kv.1 ∧ '"' ∉ kv.2) →
        parseQuery (encodeQuery params) = some params) := by
  refine ⟨?_, ?_, ?_, ?_⟩
  · intro v
    simp only [needsQuote, List.any_eq_true]
    constructor
    · rintro ⟨c, hc, hor⟩
      simp at hor
      rcases hor with h | h
      · exact Or.inl (h ▸ hc)
      · exact Or.inr (h ▸ hc)
    · rintro (h | h)
      · exact ⟨' ', h, by simp⟩
      · exact ⟨':', h, by simp⟩
  · intro k v hq
    rw [encodeEntry, if_pos hq]
    simp
  · intro k v hq
    rw [encodeEntry, if_neg (by simp [hq])]
  · intro params h
    exact parseQueryAux_encodeQuery params h _ (length_le_encodeQuery params)

theorem claim_C3_encode_parse_roundtrip_witness :
    parseQuery (encodeQuery
      [("from".data, "faturaedp@edp.pt".data),
       ("has".data, "attachment".data),
       ("subject".data, "fatura EDP".data)]) =
    some [("from".data, "faturaedp@edp.pt".data),
          ("has".data, "attachment".data),
          ("subject".data, "fatura EDP".data)] :=
  claim_C3_encode_parse_roundtrip.2.2.2 _ (by decide)

/-! ## Progress counter (main.go lines 227, 246-308)

`messageIndex` starts at 0; the progress line `#%08d …` is printed at line
266 for every message whose full-format fetch succeeded, and
`messageIndex++` runs at line 307 — but the `continue` at line 300 (raw
fetch failure) skips the increment, while attachment failures (`continue`
inside the parts loop) and `saveRawMessage` errors (logged only) do not.
Only the fetch outcomes can influence the counter, so a message is
modelled by its id and those two outcomes. -/

/-- One message of the per-page loop: provider id, whether the
`Format("full")` fetch succeeded, and whether the `Format("raw")` fetch
succeeded. -/
structure MsgStep where
  id : String
  getOk : Bool
  rawOk : Bool

/-- The progress lines `(messageIndex, m.Id)` printed by the message loop
starting from counter value `idx`. -/
def progressLines : List MsgStep → Nat → List (Nat × String)
  | [], _ => []
  | m :: rest, idx =>
    if m.getOk then
      (idx, m.id) :: progressLines rest (if m.rawOk then idx + 1 else idx)
    else progressLines rest idx

/-- Decimal digits of a natural number, most significant first; `fuel`
bounds the recursion depth (any `fuel ≥ n` is enough, since `n / 10 < n`). -/
def natDigitsAux : Nat → Nat → List Char
  | 0, n => [Char.ofNat (48 + n % 10)]
  | fuel + 1, n =>
    if n < 10 then [Char.ofNat (48 + n)]
    else natDigitsAux fuel (n / 10) ++ [Char.ofNat (48 + n % 10)]

/-- Decimal digits of a natural number, most significant first. -/
def natDigits (n : Nat) : List Char := natDigitsAux n n

/-- Zero-pad on the left to width `w`, keeping all digits when there are
more than `w` (as Go's `%0wd` does). -/
def padLeft (w : Nat) (l : List Char) : List Char :=
  List.replicate (w - l.length) '0' ++ l

/-- The digits part of `fmt.Sprintf("#%08d", n)`. -/
def formatIndex8 (n : Nat) : List Char := padLeft 8 (natDigits n)

theorem charOfDigit_isDigit : ∀ d < 10, (Char.ofNat (48 + d)).isDigit = true := by
  decide

theorem natDigitsAux_all_digit : ∀ fuel n : Nat,
    ∀ c ∈ natDigitsAux fuel n, c.isDigit = true := by
  intro fuel
  induction fuel with
  | zero =>
    intro n c hc
    simp only [natDigitsAux, List.mem_singleton] at hc
    subst hc
    exact charOfDigit_isDigit (n % 10) (Nat.mod_lt _ (by omega))
  | succ fuel ih =>
    intro n c hc
    rw [natDigitsAux] at hc
    by_cases h : n < 10
    · rw [if_pos h] at hc
      simp only [List.mem_singleton] at hc
      subst hc
      exact charOfDigit_isDigit n h
    · rw [if_neg h] at hc
      rcases List.mem_append.mp hc with h1 | h1
      · exact ih (n / 10) c h1
      · simp only [List.mem_singleton] at h1
        subst h1
        exact charOfDigit_isDigit (n % 10) (Nat.mod_lt _ (by omega))

theorem natDigits_all_digit (n : Nat) :
    ∀ c ∈ natDigits n, c.isDigit = true :=
  natDigitsAux_all_digit n n

theorem natDigitsAux_length_le : ∀ k fuel n : Nat, n < 10 ^ (k + 1) →
    (natDigitsAux fuel n).length ≤ k + 1 := by
  intro k
  induction k with
  | zero =>
    intro fuel n hn
    cases fuel with
    | zero => simp [natDigitsAux]
    | succ fuel =>
      rw [natDigitsAux, if_pos (by simpa using hn)]
      simp
  | succ k ih =>
    intro fuel n hn
    cases fuel with
    | zero => simp [natDigitsAux]
    | succ fuel =>
      rw [natDigitsAux]
      by_cases h : n < 10
      · rw [if_pos h]; simp
      · rw [if_neg h]
        have hdiv : n / 10 < 10 ^ (k + 1) := by
          rw [Nat.div_lt_iff_lt_mul (by omega)]
          calc n < 10 ^ (k + 1 + 1) := hn
          _ = 10 ^ (k + 1) * 10 := by rw [pow_succ]
        have := ih fuel (n / 10) hdiv
        simp only [List.length_append, List.length_singleton]
        omega

theorem natDigits_length_le (k n : Nat) (h : n < 10 ^ (k + 1)) :
    (natDigits n).length ≤ k + 1 :=
  natDigitsAux_length_le k n n h

theorem progressLines_chain (msgs : List MsgStep) : ∀ idx,
    ((progressLines msgs idx).map Prod.fst).Chain' (· ≤ ·) ∧
    ∀ p ∈ progressLines msgs idx, idx ≤ p.1 := by
  induction msgs with
  | nil => intro idx; simp [progressLines]
  | cons m rest ih =>
    intro idx
    by_cases hg : m.getOk
    · have hstep : ∀ idx2, idx ≤ idx2 →
          (∀ p ∈ progressLines rest idx2, idx ≤ p.1) := by
        intro idx2 h2 p hp
        exact le_trans h2 ((ih idx2).2 p hp)
      have hmono : idx ≤ (if m.rawOk then idx + 1 else idx) := by
        split <;> omega
      constructor
      · rw [progressLines]
        rw [if_pos hg]
        simp only [List.map_cons]
        rw [List.chain'_cons']
        constructor
        · intro b hb
          have hbmem := List.mem_of_mem_head? hb
          simp only [List.mem_map] at hbmem
          obtain ⟨p, hp, rfl⟩ := hbmem
          exact hstep _ hmono p hp
        · exact (ih _).1
      · intro p hp
        rw [progressLines, if_pos hg] at hp
        rcases List.mem_cons.mp hp with h | h
        · subst h; simp
        · exact hstep _ hmono p h
    · have hg2 : m.getOk = false := by simpa using hg
      constructor
      · rw [progressLines, if_neg (by simp [hg2])]
        exact (ih idx).1
      · intro p hp
        rw [progressLines, if_neg (by simp [hg2])] at hp
        exact (ih idx).2 p hp

theorem progressLines_consecutive (msgs : List MsgStep)
    (h : ∀ m ∈ msgs, m.rawOk = true) : ∀ idx,
    (progressLines msgs idx).map Prod.fst =
      List.range' idx (msgs.filter (fun m => m.getOk)).length := by
  induction msgs with
  | nil => intro idx; simp [progressLines]
  | cons m rest ih =>
    intro idx
    have hraw : m.rawOk = true := h m (by simp)
    have ih2 := ih (fun m2 hm2 => h m2 (by simp [hm2]))
    by_cases hg : m.getOk
    · rw [progressLines, if_pos hg, if_pos hraw]
      simp only [List.map_cons, ih2 (idx + 1)]
      rw [List.filter_cons_of_pos (by simpa using hg)]
      simp [List.range'_succ]
    · have hg2 : m.getOk = false := by simpa using hg
      rw [progressLines, if_neg (by simp [hg2])]
      rw [List.filter_cons_of_neg (by simp [hg2])]
      exact ih2 idx

/-- C4 as stated is false: when a message's raw-format retrieval fails, the
`continue` at line 300 of main.go skips `messageIndex++`, so the next
classified message's progress line repeats the same index instead of
increasing it by one. -/
theorem claim_C4_counter_counterexample :
    progressLines [⟨"a", true, false⟩, ⟨"b", true, true⟩] 0 =
      [(0, "a"), (0, "b")]
    ∧ ¬ ((progressLines [⟨"a", true, false⟩, ⟨"b", true, true⟩] 0).map
        Prod.fst).Chain' (fun p q => q = p + 1) := by
  constructor
  · rfl
  · intro hch
    have h2 : (progressLines [⟨"a", true, false⟩, ⟨"b", true, true⟩] 0).map
        Prod.fst = [0, 0] := rfl
    rw [h2, List.chain'_cons] at hch
    omega

/-- C4 (amended): the progress counter is zero-based, non-decreasing, and
rendered as 8 zero-padded digits for every value below 10^8; successive
progress lines increase by exactly one whenever every raw-message
retrieval succeeds, but a raw-retrieval failure makes the following line
repeat the same index. -/
theorem claim_C4_progress_counter :
    (∀ msgs idx, ((progressLines msgs idx).map Prod.fst).Chain' (· ≤ ·))
    ∧ (∀ msgs idx, (∀ m ∈ msgs, m.rawOk = true) →
        (progressLines msgs idx).map Prod.fst =
          List.range' idx (msgs.filter (fun m => m.getOk)).length)
    ∧ (∀ n, n < 100000000 → (formatIndex8 n).length = 8
        ∧ ∀ c ∈ formatIndex8 n, c.isDigit = true) := by
  refine ⟨fun msgs idx => (progressLines_chain msgs idx).1,
    fun msgs idx h => progressLines_consecutive msgs h idx,
    fun n hn => ?_⟩
  have hlen : (natDigits n).length ≤ 8 := by
    have := natDigits_length_le 7 n (by norm_num; omega)
    omega
  constructor
  · simp only [formatIndex8, padLeft, List.length_append,
      List.length_replicate]
    omega
  · intro c hc
    rcases List.mem_append.mp hc with h1 | h1
    · rw [List.eq_of_mem_replicate h1]
      decide
    · exact natDigits_all_digit n c h1

theorem claim_C4_progress_counter_witness :
    (progressLines [⟨"a", true, true⟩, ⟨"b", false, true⟩,
        ⟨"c", true, true⟩] 0).map Prod.fst = [0, 1]
    ∧ (formatIndex8 7).length = 8 := by
  constructor
  · rw [claim_C4_progress_counter.2.1 _ 0 (by decide)]
    rfl
  · exact (claim_C4_progress_counter.2.2 7 (by norm_num)).1

/-! ## Attachment selection (main.go lines 214-215, 279-294)

`invoiceFilenameRegex := regexp.MustCompile("^\\d+\\.pdf$")`, and the loop
over `msg.Payload.Parts` (the top-level body parts only — the code never
recurses into nested parts) that fetches parts with
`part.MimeType == "application/pdf"` and a matching `part.Filename`. -/

/-- One top-level body part of a message. -/
structure MessagePart where
  mimeType : String
  filename : String
  attachmentId : String
deriving DecidableEq

/-- `invoiceFilenameRegex.MatchString`: `^\d+\.pdf$` holds exactly when the
leading digit run is non-empty and the remainder is exactly `.pdf` (the dot
is not a digit, so the anchored greedy `\d+` is the full digit run). -/
def invoiceFilenameMatch (s : String) : Bool :=
  !(s.data.takeWhile Char.isDigit).isEmpty &&
    s.data.dropWhile Char.isDigit == ".pdf".data

/-- The parts the loop at lines 279-294 fetches and saves: top-level parts
with MIME type exactly `application/pdf` and a filename matching the
pattern. -/
def selectedParts (parts : List MessagePart) : List MessagePart :=
  parts.filter
    (fun p => p.mimeType == "application/pdf" && invoiceFilenameMatch p.filename)

/-- C5: a part is fetched and persisted iff it is a top-level part whose
MIME type is exactly `application/pdf` and whose filename is one or more
digits followed by exactly `.pdf`; `187008571923.pdf` matches while
`invoice-187008571923.pdf` and `187008571923.txt` do not. -/
theorem claim_C5_attachment_selection :
    (∀ s : String, invoiceFilenameMatch s = true ↔
      ∃ ds, s.data = ds ++ ".pdf".data ∧ ds ≠ [] ∧ ∀ c ∈ ds, c.isDigit = true)
    ∧ (∀ parts p, p ∈ selectedParts parts ↔
        p ∈ parts ∧ p.mimeType = "application/pdf" ∧
          invoiceFilenameMatch p.filename = true)
    ∧ invoiceFilenameMatch "187008571923.pdf" = true
    ∧ invoiceFilenameMatch "invoice-187008571923.pdf" = false
    ∧ invoiceFilenameMatch "187008571923.txt" = false := by
  refine ⟨?_, ?_, by decide, by decide, by decide⟩
  · intro s
    constructor
    · intro h
      simp only [invoiceFilenameMatch, Bool.and_eq_true, Bool.not_eq_eq_eq_not,
        Bool.not_true, beq_iff_eq] at h
      refine ⟨s.data.takeWhile Char.isDigit, ?_, ?_, ?_⟩
      · conv_lhs => rw [← List.takeWhile_append_dropWhile
          (p := Char.isDigit) (l := s.data)]
        rw [h.2]
      · intro h0
        rw [h0] at h
        simp at h
      · intro c hc
        exact List.mem_takeWhile_imp hc
    · rintro ⟨ds, hs, hne, hdig⟩
      have hpd : (".pdf".data : List Char) = '.' :: "pdf".data := rfl
      have htw := takeWhile_all_append Char.isDigit ds '.' "pdf".data
        hdig (by decide)
      simp only [invoiceFilenameMatch, hs, hpd, Bool.and_eq_true,
        Bool.not_eq_eq_eq_not, Bool.not_true, beq_iff_eq]
      refine ⟨?_, ?_⟩
      · rw [htw.1]
        simpa using hne
      · rw [htw.2]
  · intro parts p
    simp only [selectedParts, List.mem_filter, Bool.and_eq_true, beq_iff_eq]

theorem claim_C5_attachment_selection_witness :
    (⟨"application/pdf", "187008571923.pdf", "att1"⟩ : MessagePart) ∈
      selectedParts
        [⟨"application/pdf", "187008571923.pdf", "att1"⟩,
         ⟨"application/pdf", "invoice-187008571923.pdf", "att2"⟩,
         ⟨"text/plain", "187008571923.pdf", "att3"⟩] :=
  (claim_C5_attachment_selection.2.1 _ _).mpr
    ⟨by decide, rfl, by decide⟩

/-! ## Token file handling (main.go lines 46-58, 123-132)

`tokenFromFile` opens `token.json` and JSON-decodes it, returning the
decode error alongside the token; `getClient` runs the interactive web
flow whenever `tokenFromFile` returned any error. The token file state is
modelled as `none` (absent — `os.Open` fails), `some none` (present but
the JSON decode fails), or `some (some t)` (present and decoding to `t`).
No expiry check is ever performed. -/

/-- An OAuth2 credential as stored in the token file. -/
structure Credential where
  accessToken : String
  refreshToken : String
  tokenType : String
  expiry : Int
deriving DecidableEq

/-- `tokenFromFile`: any open or decode failure is an error. -/
def tokenFromFile (file : Option (Option Credential)) :
    Except Unit Credential :=
  match file with
  | none => .error ()
  | some none => .error ()
  | some (some t) => .ok t

/-- `getClient`: the token used and whether the interactive authorization
flow (`getTokenFromWeb`, whose result is `webToken`) was entered. -/
def getClient (file : Option (Option Credential)) (webToken : Credential) :
    Credential × Bool :=
  match tokenFromFile file with
  | .ok t => (t, false)
  | .error _ => (webToken, true)

/-- C6 as stated is false: a token file that is present but whose contents
fail to decode (state `some none`) does enter the interactive flow, so
presence does not short-circuit it unconditionally. -/
theorem claim_C6_token_counterexample :
    (getClient (some none) ⟨"w", "r", "Bearer", 0⟩).2 = true := rfl

/-- C6 (amended): the interactive authorization flow is entered exactly
when the token file is absent or its contents fail to decode; when the
file decodes to a credential, that credential is used directly and the
interactive flow is skipped, with no expiry validation whatsoever. -/
theorem claim_C6_token_file :
    (∀ file w, (getClient file w).2 = true ↔
      file = none ∨ file = some none)
    ∧ (∀ t w, getClient (some (some t)) w = (t, false))
    ∧ (∀ a r ty e w, getClient (some (some ⟨a, r, ty, e⟩)) w =
        (⟨a, r, ty, e⟩, false)) := by
  refine ⟨?_, fun t w => rfl, fun a r ty e w => rfl⟩
  intro file w
  rcases file with _ | _ | t <;> simp [getClient, tokenFromFile]

theorem claim_C6_token_file_witness :
    (getClient none ⟨"w", "r", "Bearer", 0⟩).2 = true
    ∧ getClient (some (some ⟨"a", "r", "Bearer", -99⟩))
        ⟨"w", "r", "Bearer", 0⟩ = (⟨"a", "r", "Bearer", -99⟩, false) :=
  ⟨(claim_C6_token_file.1 none ⟨"w", "r", "Bearer", 0⟩).mpr (Or.inl rfl),
   claim_C6_token_file.2.2 "a" "r" "Bearer" (-99) ⟨"w", "r", "Bearer", 0⟩⟩

/-! ## Date formatting (main.go lines 158-162)

`formatDate` builds `time.Unix(ms/1000, (ms%1000)*1e6)` and formats it
with layout `2006-01-02`. Go's truncating division plus `time.Unix`'s
nanosecond normalization make the instant exactly `ms` milliseconds from
the epoch, so with the spec's single-timezone assumption modelled as
offset zero the printed date is the proleptic-Gregorian civil date of day
`ms.fdiv 86400000` (here written `ms / 86400000`, Lean's Int division
being floor-like for a positive divisor). The day-to-date conversion is
the standard era-based civil-from-days algorithm; Go's layout `2006`
zero-pads the year to 4 digits (printing more digits, or a leading minus,
when the year is outside 0000-9999), and `01`/`02` zero-pad month and day
to 2 digits. -/

/-- 400-year era containing day `z` (eras count from 0000-03-01). -/
def cEra (z : Int) : Int := (z + 719468) / 146097

/-- Day of era, in `[0, 146096]`. -/
def cDoe (z : Int) : Nat := ((z + 719468) - cEra z * 146097).toNat

/-- Year of era, in `[0, 399]`. -/
def cYoe (doe : Nat) : Nat :=
  (doe - doe / 1460 + doe / 36524 - doe / 146096) / 365

/-- Day of year relative to the March-1st-based year, in `[0, 365]`. -/
def cDoy (doe : Nat) : Nat :=
  doe - (365 * cYoe doe + cYoe doe / 4 - cYoe doe / 100)

/-- Month index of the March-based year, in `[0, 11]`. -/
def cMp (doy : Nat) : Nat := (5 * doy + 2) / 153

/-- Day of month, in `[1, 31]`. -/
def cDay (doy : Nat) : Nat := doy - (153 * cMp doy + 2) / 5 + 1

/-- Calendar month, in `[1, 12]`. -/
def cMonth (doy : Nat) : Nat :=
  if cMp doy < 10 then cMp doy + 3 else cMp doy - 9

/-- Calendar year (January-based). -/
def cYear (z : Int) : Int :=
  cEra z * 400 + cYoe (cDoe z) +
    (if cMonth (cDoy (cDoe z)) ≤ 2 then 1 else 0)

/-- Civil date `(year, month, day)` of epoch day `z`. -/
def civilFromDays (z : Int) : Int × Nat × Nat :=
  (cYear z, cMonth (cDoy (cDoe z)), cDay (cDoy (cDoe z)))

/-- Go layout `2006`: the year zero-padded to 4 digits, negative years
rendered with a leading minus (as `appendInt` does). -/
def formatYear (y : Int) : List Char :=
  if y < 0 then '-' :: padLeft 4 (natDigits (-y).toNat)
  else padLeft 4 (natDigits y.toNat)

/-- `formatDate` of main.go: the `YYYY-MM-DD` rendering of the civil date
of the epoch day containing instant `ms` (milliseconds). -/
def formatDate (ms : Int) : List Char :=
  formatYear (civilFromDays (ms / 86400000)).1 ++
    ('-' :: padLeft 2 (natDigits (civilFromDays (ms / 86400000)).2.1)) ++
    ('-' :: padLeft 2 (natDigits (civilFromDays (ms / 86400000)).2.2))

/-- Shape check: exactly `DDDD-DD-DD` with `D` a decimal digit. -/
def isDateShape : List Char → Bool
  | [y1, y2, y3, y4, h1, m1, m2, h2, d1, d2] =>
    y1.isDigit && y2.isDigit && y3.isDigit && y4.isDigit &&
    (h1 == '-') && m1.isDigit && m2.isDigit && (h2 == '-') &&
    d1.isDigit && d2.isDigit
  | _ => false

theorem cDoe_lt (z : Int) : cDoe z < 146097 := by
  unfold cDoe cEra
  omega

theorem cYoe_le (doe : Nat) (h : doe ≤ 146096) : cYoe doe ≤ 399 := by
  unfold cYoe
  omega

theorem cDoy_le (doe : Nat) (h : doe ≤ 146096) : cDoy doe ≤ 465 := by
  unfold cDoy cYoe
  omega

theorem cMonth_bounds (doy : Nat) (h : doy ≤ 465) :
    1 ≤ cMonth doy ∧ cMonth doy ≤ 12 := by
  unfold cMonth cMp
  split <;> omega

theorem cDay_bounds (doy : Nat) (h : doy ≤ 465) :
    1 ≤ cDay doy ∧ cDay doy ≤ 31 := by
  unfold cDay cMp
  omega

theorem cYear_bounds (z : Int) (h0 : 0 ≤ z) (h1 : z ≤ 2932896) :
    0 ≤ cYear z ∧ cYear z ≤ 9999 := by
  have hera : 4 ≤ cEra z ∧ cEra z ≤ 24 := by unfold cEra; omega
  have hdoe : cDoe z ≤ 146096 := by have := cDoe_lt z; omega
  have hyoe : cYoe (cDoe z) ≤ 399 := cYoe_le _ hdoe
  unfold cYear
  constructor
  · split <;> omega
  · rcases Nat.lt_or_ge (cYoe (cDoe z)) 399 with hy | hy
    · split <;> omega
    · have hyoe399 : cYoe (cDoe z) = 399 := by omega
      rcases Int.lt_or_le (cEra z) 24 with he | he
      · split <;> omega
      · have hera24 : cEra z = 24 := by omega
        have hdoe24 : cDoe z ≤ 146036 := by
          unfold cDoe at *
          unfold cEra at *
          omega
        have hdoy : cDoy (cDoe z) ≤ 305 := by
          unfold cDoy
          rw [hyoe399]
          omega
        have hm : ¬ cMonth (cDoy (cDoe z)) ≤ 2 := by
          unfold cMonth cMp
          split <;> omega
        rw [if_neg hm]
        omega

theorem padLeft_length (w : Nat) (l : List Char) (h : l.length ≤ w) :
    (padLeft w l).length = w := by
  simp only [padLeft, List.length_append, List.length_replicate]
  omega

theorem padLeft_digits (w : Nat) (l : List Char)
    (h : ∀ c ∈ l, c.isDigit = true) :
    ∀ c ∈ padLeft w l, c.isDigit = true := by
  intro c hc
  simp only [padLeft] at hc
  rcases List.mem_append.mp hc with h1 | h1
  · rw [List.eq_of_mem_replicate h1]
    decide
  · exact h c h1

theorem isDateShape_assemble (a b c : List Char) (ha : a.length = 4)
    (hb : b.length = 2) (hc : c.length = 2)
    (da : ∀ x ∈ a, x.isDigit = true) (db : ∀ x ∈ b, x.isDigit = true)
    (dc : ∀ x ∈ c, x.isDigit = true) :
    isDateShape (a ++ ('-' :: b) ++ ('-' :: c)) = true := by
  obtain ⟨a1, a', rfl⟩ := List.exists_of_length_succ a ha
  have ha' : a'.length = 3 := by simpa using ha
  obtain ⟨a2, a3, a4, rfl⟩ := List.length_eq_three.mp ha'
  obtain ⟨b1, b2, rfl⟩ := List.length_eq_two.mp hb
  obtain ⟨c1, c2, rfl⟩ := List.length_eq_two.mp hc
  show isDateShape [a1, a2, a3, a4, '-', b1, b2, '-', c1, c2] = true
  simp [isDateShape, da a1 (by simp), da a2 (by simp), da a3 (by simp),
    da a4 (by simp), db b1 (by simp), db b2 (by simp), dc c1 (by simp),
    dc c2 (by simp)]

theorem formatDate_shape_of_day (z : Int) (hz0 : 0 ≤ z) (hz1 : z ≤ 2932896) :
    isDateShape (formatYear (cYear z) ++
      ('-' :: padLeft 2 (natDigits (cMonth (cDoy (cDoe z))))) ++
      ('-' :: padLeft 2 (natDigits (cDay (cDoy (cDoe z)))))) = true := by
  have hy := cYear_bounds z hz0 hz1
  have hdoy := cDoy_le (cDoe z) (by have := cDoe_lt z; omega)
  have hm := cMonth_bounds (cDoy (cDoe z)) hdoy
  have hd := cDay_bounds (cDoy (cDoe z)) hdoy
  rw [show formatYear (cYear z) = padLeft 4 (natDigits (cYear z).toNat) from
    by unfold formatYear; rw [if_neg (by omega)]]
  apply isDateShape_assemble
  · exact padLeft_length 4 _ (natDigits_length_le 3 _ (by norm_num; omega))
  · exact padLeft_length 2 _ (natDigits_length_le 1 _ (by norm_num; omega))
  · exact padLeft_length 2 _ (natDigits_length_le 1 _ (by norm_num; omega))
  · exact padLeft_digits _ _ (natDigits_all_digit _)
  · exact padLeft_digits _ _ (natDigits_all_digit _)
  · exact padLeft_digits _ _ (natDigits_all_digit _)

/-- C7 as stated is false for unbounded timestamps: at the first
millisecond of year 10000 the rendered year has five digits, so the output
is 11 characters and not of shape `YYYY-MM-DD`. -/
theorem claim_C7_shape_counterexample :
    formatDate 253402300800000 = "10000-01-01".data
    ∧ isDateShape (formatDate 253402300800000) = false := by
  constructor
  · decide
  · decide

/-- C7 (amended): `formatDate` is deterministic, and for every
epoch-millisecond timestamp from 1970-01-01 up to the end of year 9999
(`0 ≤ ms < 253402300800000`) its output has the exact shape `YYYY-MM-DD`:
four digits, hyphen, two digits, hyphen, two digits. -/
theorem claim_C7_format_date :
    (∀ a b : Int, a = b → formatDate a = formatDate b)
    ∧ (∀ ms : Int, 0 ≤ ms → ms < 253402300800000 →
        isDateShape (formatDate ms) = true) := by
  constructor
  · intro a b h
    rw [h]
  · intro ms h0 h1
    exact formatDate_shape_of_day (ms / 86400000) (by omega) (by omega)

theorem claim_C7_format_date_witness :
    formatDate 1720400000000 = formatDate 1720400000000
    ∧ isDateShape (formatDate 1720400000000) = true
    ∧ formatDate 1720400000000 = "2024-07-08".data :=
  ⟨claim_C7_format_date.1 1720400000000 1720400000000 rfl,
   claim_C7_format_date.2 1720400000000 (by norm_num) (by norm_num),
   by decide⟩

/-! ## Configuration loading (main.go lines 29-43, 189-192)

`getConfiguration` treats `os.IsNotExist` read errors as an empty
configuration, other read errors and YAML unmarshal errors as fatal; in
`main` a configuration error aborts via `log.Fatalf` before the
credentials are read, the client is authorized, or any scanning happens.
The file read outcome and the YAML unmarshaller are passed explicitly. -/

/-- Outcome of `os.ReadFile`: the file is missing, or some other error. -/
inductive ReadError
  | notExist
  | other
deriving DecidableEq

/-- `getConfiguration`: contracts as an association list on success. -/
def getConfiguration (readResult : Except ReadError (List Char))
    (unmarshal : List Char → Except (List Char) (List (List Char × List Char))) :
    Except (List Char) (List (List Char × List Char)) :=
  match readResult with
  | .error .notExist => .ok []
  | .error .other => .error "error reading file".data
  | .ok data =>
    match unmarshal data with
    | .error e => .error ("error unmarshaling YAML: ".data ++ e)
    | .ok config => .ok config

/-- The phases of `main` relevant to C8, in program order. -/
inductive MainEvent
  | fatalConfig
  | authorize
  | scanMailbox
deriving DecidableEq

/-- The observable phase sequence of `main`: a configuration error aborts
immediately (lines 189-192), before `getClient` (line 204) and the message
loop (line 229). -/
def mainEvents (readResult : Except ReadError (List Char))
    (unmarshal : List Char → Except (List Char) (List (List Char × List Char))) :
    List MainEvent :=
  match getConfiguration readResult unmarshal with
  | .error _ => [.fatalConfig]
  | .ok _ => [.authorize, .scanMailbox]

/-- C8: a missing alias file yields the empty configuration and no error;
a file that reads but fails to unmarshal yields an error, and any
configuration error aborts the run before authorization or scanning. -/
theorem claim_C8_configuration :
    (∀ unmarshal, getConfiguration (.error .notExist) unmarshal = .ok [])
    ∧ (∀ data e unmarshal, unmarshal data = .error e →
        getConfiguration (.ok data) unmarshal =
          .error ("error unmarshaling YAML: ".data ++ e))
    ∧ (∀ readResult unmarshal msg,
        getConfiguration readResult unmarshal = .error msg →
        mainEvents readResult unmarshal = [.fatalConfig] ∧
        MainEvent.authorize ∉ mainEvents readResult unmarshal ∧
        MainEvent.scanMailbox ∉ mainEvents readResult unmarshal) := by
  refine ⟨fun unmarshal => rfl, ?_, ?_⟩
  · intro data e unmarshal h
    show (match unmarshal data with
      | Except.error e => Except.error ("error unmarshaling YAML: ".data ++ e)
      | Except.ok config => Except.ok config) =
        Except.error ("error unmarshaling YAML: ".data ++ e)
    rw [h]
  · intro readResult unmarshal msg h
    unfold mainEvents
    rw [h]
    refine ⟨rfl, by simp, by simp⟩

theorem claim_C8_configuration_witness :
    getConfiguration (.error .notExist)
      (fun _ => .error "yaml: unmarshal errors".data) = .ok []
    ∧ mainEvents (.ok "not valid yaml".data)
        (fun _ => .error "yaml: unmarshal errors".data) =
      [MainEvent.fatalConfig] := by
  constructor
  · exact claim_C8_configuration.1 _
  · exact (claim_C8_configuration.2.2 (.ok "not valid yaml".data)
      (fun _ => .error "yaml: unmarshal errors".data)
      ("error unmarshaling YAML: ".data ++ "yaml: unmarshal errors".data)
      rfl).1

/-! ## Token persistence (main.go lines 134-142)

`saveToken` aborts the process (`log.Fatalf`) when `os.OpenFile` fails;
when the open succeeds, the return value of
`json.NewEncoder(f).Encode(token)` is discarded, so the function returns
normally whether or not the credential was actually written. -/

/-- Result of a `saveToken` call: process abort, or normal return carrying
whether the credential actually reached the file. -/
inductive SaveTokenOutcome
  | fatal
  | returned (persisted : Bool)
deriving DecidableEq

/-- `saveToken`, parametrised by the outcomes of `os.OpenFile` and of the
JSON encode-and-write. -/
def saveToken (openOk encodeOk : Bool) : SaveTokenOutcome :=
  if openOk then .returned encodeOk else .fatal

/-- C10: `saveToken` aborts the process exactly when the file cannot be
opened; when the open succeeds it returns normally even if encoding or
writing failed, so a credential can silently fail to persist. -/
theorem claim_C10_save_token :
    (∀ openOk encodeOk,
      saveToken openOk encodeOk = .fatal ↔ openOk = false)
    ∧ (∀ encodeOk, saveToken true encodeOk = .returned encodeOk)
    ∧ saveToken true false = .returned false := by
  refine ⟨?_, fun encodeOk => rfl, rfl⟩
  intro openOk encodeOk
  cases openOk <;> simp [saveToken]

theorem claim_C10_save_token_witness :
    saveToken true false = SaveTokenOutcome.returned false
    ∧ saveToken false true = SaveTokenOutcome.fatal :=
  ⟨claim_C10_save_token.2.1 false,
   (claim_C10_save_token.1 false true).mpr rfl⟩

/-! ## Attachment and raw-message persistence (main.go lines 164-186)

`saveAttachment` and `saveRawMessage` first run
`base64.URLEncoding.DecodeString` and return an error without touching the
file system when decoding fails; only then do they `os.WriteFile`. Go's
decoder ignores `\r` and `\n`, consumes the remaining characters in
4-character quanta over the URL-safe alphabet (`A-Z a-z 0-9 - _`), and
requires `=`-padding of a final partial quantum, at the very end of the
input; any other leftover of 1-3 characters, or any character outside the
alphabet, is a `CorruptInputError`. Trailing padding bits are not checked
(Go's default non-strict mode). -/

/-- Value of one character of the URL-safe base64 alphabet. -/
def b64Val (c : Char) : Option Nat :=
  if 'A' ≤ c ∧ c ≤ 'Z' then some (c.toNat - 65)
  else if 'a' ≤ c ∧ c ≤ 'z' then some (c.toNat - 97 + 26)
  else if '0' ≤ c ∧ c ≤ '9' then some (c.toNat - 48 + 52)
  else if c = '-' then some 62
  else if c = '_' then some 63
  else none

/-- Decode whole 4-character quanta into bytes; the final quantum may carry
one or two `=` padding characters. -/
def b64DecodeGroups : List Char → Option (List Nat)
  | [] => some []
  | c1 :: c2 :: c3 :: c4 :: rest =>
    match b64Val c1, b64Val c2 with
    | some v1, some v2 =>
      if c3 = '=' then
        if c4 = '=' then
          if rest = [] then some [v1 * 4 + v2 / 16] else none
        else none
      else
        match b64Val c3 with
        | none => none
        | some v3 =>
          if c4 = '=' then
            if rest = [] then
              some [v1 * 4 + v2 / 16, v2 % 16 * 16 + v3 / 4]
            else none
          else
            match b64Val c4 with
            | none => none
            | some v4 =>
              match b64DecodeGroups rest with
              | none => none
              | some bs =>
                some ((v1 * 4 + v2 / 16) :: (v2 % 16 * 16 + v3 / 4) ::
                  (v3 % 4 * 64 + v4) :: bs)
    | _, _ => none
  | _ => none

/-- `base64.URLEncoding.DecodeString`: strip `\r`/`\n`, then decode. -/
def base64UrlDecode (s : List Char) : Option (List Nat) :=
  b64DecodeGroups (s.filter (fun c => !(c == '\r') && !(c == '\n')))

theorem b64DecodeGroups_step (c1 c2 c3 c4 : Char) (rest : List Char) :
    b64DecodeGroups (c1 :: c2 :: c3 :: c4 :: rest) =
      match b64Val c1, b64Val c2 with
      | some v1, some v2 =>
        if c3 = '=' then
          if c4 = '=' then
            if rest = [] then some [v1 * 4 + v2 / 16] else none
          else none
        else
          match b64Val c3 with
          | none => none
          | some v3 =>
            if c4 = '=' then
              if rest = [] then
                some [v1 * 4 + v2 / 16, v2 % 16 * 16 + v3 / 4]
              else none
            else
              match b64Val c4 with
              | none => none
              | some v4 =>
                match b64DecodeGroups rest with
                | none => none
                | some bs =>
                  some ((v1 * 4 + v2 / 16) :: (v2 % 16 * 16 + v3 / 4) ::
                    (v3 % 4 * 64 + v4) :: bs)
      | _, _ => none := rfl

theorem b64DecodeGroups_length : ∀ n : Nat, ∀ s : List Char, s.length ≤ n →
    s.length % 4 ≠ 0 → b64DecodeGroups s = none := by
  intro n
  induction n with
  | zero =>
    intro s hl h
    have h0 : s.length = 0 := by omega
    rw [h0] at h
    simp at h
  | succ n ih =>
    intro s hl h
    rcases s with _ | ⟨c1, _ | ⟨c2, _ | ⟨c3, _ | ⟨c4, rest⟩⟩⟩⟩
    · simp at h
    · rfl
    · rfl
    · rfl
    · rw [b64DecodeGroups_step]
      have hrest : rest.length % 4 ≠ 0 := by
        simp only [List.length_cons] at h
        omega
      have hrlen : rest.length ≤ n := by
        simp only [List.length_cons] at hl
        omega
      cases hv1 : b64Val c1 with
      | none => rfl
      | some v1 =>
        cases hv2 : b64Val c2 with
        | none => simp only [hv1]
        | some v2 =>
          simp only [hv1, hv2]
          by_cases h3 : c3 = '='
          · rw [if_pos h3]
            by_cases h4 : c4 = '='
            · rw [if_pos h4]
              have hr : rest ≠ [] := by
                intro h0
                rw [h0] at hrest
                simp at hrest
              rw [if_neg hr]
            · rw [if_neg h4]
          · rw [if_neg h3]
            cases hv3 : b64Val c3 with
            | none => rfl
            | some v3 =>
              simp only
              by_cases h4 : c4 = '='
              · rw [if_pos h4]
                have hr : rest ≠ [] := by
                  intro h0
                  rw [h0] at hrest
                  simp at hrest
                rw [if_neg hr]
              · rw [if_neg h4]
                cases hv4 : b64Val c4 with
                | none => rfl
                | some v4 =>
                  simp only
                  rw [ih rest hrlen hrest]

/-- The local directory: file names mapped to byte contents (most recent
write first). -/
def FileSys : Type := List (List Char × List Nat)

/-- `os.WriteFile` on success: (re)places the file's contents. -/
def writeFile (fs : FileSys) (name : List Char) (data : List Nat) : FileSys :=
  (name, data) :: fs

/-- `saveAttachment` (lines 164-174): decode `part.Data`, then write;
`writeOk` is the write syscall's outcome. Returns the error message
(`none` for a nil error) and the resulting file system. -/
def saveAttachment (fs : FileSys) (writeOk : Bool)
    (filename data : List Char) : Option (List Char) × FileSys :=
  match base64UrlDecode data with
  | none => (some "unable to decode attachment data".data, fs)
  | some bytes =>
    if writeOk then (none, writeFile fs filename bytes)
    else (some "unable to write attachment file".data, fs)

/-- `saveRawMessage` (lines 176-186): same structure for the raw
RFC-822 message. -/
def saveRawMessage (fs : FileSys) (writeOk : Bool)
    (filename rawContent : List Char) : Option (List Char) × FileSys :=
  match base64UrlDecode rawContent with
  | none => (some "unable to decode message content".data, fs)
  | some bytes =>
    if writeOk then (none, writeFile fs filename bytes)
    else (some "unable to write raw message file".data, fs)

/-- C9: both savers decode before writing — when base64url decoding fails
(for instance any newline-free input whose length is not a multiple of 4)
they return an error and leave the file system untouched — and they return
nil exactly when the decode and the write both succeed. -/
theorem claim_C9_save_decode :
    (∀ s : List Char, (∀ c ∈ s, c ≠ '\r' ∧ c ≠ '\n') → s.length % 4 ≠ 0 →
        base64UrlDecode s = none)
    ∧ (∀ fs w fn data, base64UrlDecode data = none →
        saveAttachment fs w fn data =
          (some "unable to decode attachment data".data, fs))
    ∧ (∀ fs w fn raw, base64UrlDecode raw = none →
        saveRawMessage fs w fn raw =
          (some "unable to decode message content".data, fs))
    ∧ (∀ fs w fn data, (saveAttachment fs w fn data).1 = none ↔
        (base64UrlDecode data).isSome ∧ w = true)
    ∧ (∀ fs w fn raw, (saveRawMessage fs w fn raw).1 = none ↔
        (base64UrlDecode raw).isSome ∧ w = true) := by
  refine ⟨?_, ?_, ?_, ?_, ?_⟩
  · intro s hc h
    have hfilter : s.filter (fun c => !(c == '\r') && !(c == '\n')) = s := by
      rw [List.filter_eq_self]
      intro c hmem
      have := hc c hmem
      simp [this.1, this.2]
    unfold base64UrlDecode
    rw [hfilter]
    exact b64DecodeGroups_length s.length s le_rfl h
  · intro fs w fn data h
    unfold saveAttachment
    rw [h]
  · intro fs w fn raw h
    unfold saveRawMessage
    rw [h]
  · intro fs w fn data
    unfold saveAttachment
    cases h : base64UrlDecode data with
    | none => simp
    | some bytes => cases w <;> simp
  · intro fs w fn raw
    unfold saveRawMessage
    cases h : base64UrlDecode raw with
    | none => simp
    | some bytes => cases w <;> simp

theorem claim_C9_save_decode_witness :
    saveAttachment [] true "f.pdf".data "abc".data =
      (some "unable to decode attachment data".data, [])
    ∧ saveRawMessage [] true "m.eml".data "abc".data =
      (some "unable to decode message content".data, [])
    ∧ (saveAttachment [] true "f.pdf".data "QUJD".data).1 = none
    ∧ (saveRawMessage [] false "m.eml".data "QUJD".data).1 ≠ none := by
  have hdec : base64UrlDecode "abc".data = none :=
    claim_C9_save_decode.1 "abc".data (by decide) (by decide)
  refine ⟨claim_C9_save_decode.2.1 [] true "f.pdf".data "abc".data hdec,
    claim_C9_save_decode.2.2.1 [] true "m.eml".data "abc".data hdec,
    (claim_C9_save_decode.2.2.2.1 [] true "f.pdf".data "QUJD".data).mpr
      ⟨by decide, rfl⟩, ?_⟩
  intro h
  have := (claim_C9_save_decode.2.2.2.2 [] false "m.eml".data
    "QUJD".data).mp h
  exact absurd this.2 (by decide)
